import Mathlib

/-!
Shallow embedding of the Monte Carlo tree search implementation in
`src/P2/src/mcts_vanilla.py` and `src/P2/src/mcts_modified.py`.

Python values (game states, actions, player identities, scores) are
dynamically typed; the embedding uses the rationals as the common value
universe, which supports every numeric test the two files perform
(`points[...] == 1`, `identity - 1`, `parent.visits % 2`).  Python `None`
is modelled by `Option.none` where the code can store it
(`parent_action`).  `float` arithmetic is modelled over the reals, with
`float('inf')` and `float('-inf')` modelled by `⊤` and `⊥` in `EReal`.
Randomness (`random.choice`) is modelled by an explicit stream of index
choices, and `while` loops / recursion over the mutable tree by fuel.
-/

/-- Interface of the external game collaborator (`board`) as used by the two
source files: `is_ended`, `legal_actions`, `next_state`, `current_player`
and `points_values`.  `points_values` is modelled as a total function from
state and player to score; the source files only read it at ended states
(where the spec says it is defined). -/
structure Board where
  is_ended : ℚ → Bool
  legal_actions : ℚ → List ℚ
  next_state : ℚ → ℚ → ℚ
  current_player : ℚ → ℚ
  points_values : ℚ → ℚ → ℚ

/-- Modelled from the spec: the `MCTSNode` class lives in `mcts_node.py`,
which is not among the sources; its fields and creation defaults follow
the spec's data model (§3): `parent_action` (`None` for the root),
`untried_actions` (populated at creation from the legal-action list),
`child_nodes` (an action-keyed dictionary, modelled as an association
list), a `visits` counter and a `wins` accumulator.  The `parent`
back-reference is represented structurally: a child lives inside its
parent's `child_nodes`, and backpropagation is modelled on explicit
parent chains (see `backpropagate`). -/
inductive MCTSNode : Type where
  | mk (parent_action : Option ℚ) (untried_actions : List ℚ)
      (child_nodes : List (ℚ × MCTSNode)) (visits : Nat) (wins : ℚ)

/-- Accessor for the `parent_action` attribute. -/
def MCTSNode.parent_action : MCTSNode → Option ℚ
  | .mk pa _ _ _ _ => pa

/-- Accessor for the `untried_actions` attribute. -/
def MCTSNode.untried_actions : MCTSNode → List ℚ
  | .mk _ ua _ _ _ => ua

/-- Accessor for the `child_nodes` attribute. -/
def MCTSNode.child_nodes : MCTSNode → List (ℚ × MCTSNode)
  | .mk _ _ cs _ _ => cs

/-- Accessor for the `visits` attribute. -/
def MCTSNode.visits : MCTSNode → Nat
  | .mk _ _ _ v _ => v

/-- Accessor for the `wins` attribute. -/
def MCTSNode.wins : MCTSNode → ℚ
  | .mk _ _ _ _ w => w

/-- Modelled from the spec: `MCTSNode(parent=…, parent_action=pa,
action_list=l)` creates a node with no children, `untried_actions = l`,
`visits = 0` and `wins = 0` (spec §3, lifecycle). -/
def MCTSNode.new (pa : Option ℚ) (action_list : List ℚ) : MCTSNode :=
  .mk pa action_list [] 0 0

/-- Keys of the `child_nodes` dictionary. -/
def MCTSNode.childKeys (n : MCTSNode) : List ℚ :=
  n.child_nodes.map Prod.fst

/-- The statistics update performed on one node by one backpropagation
step: `node.visits += 1; node.wins += won`. -/
def MCTSNode.bump (n : MCTSNode) (won : ℚ) : MCTSNode :=
  .mk n.parent_action n.untried_actions n.child_nodes (n.visits + 1) (n.wins + won)

/-- Python dictionary assignment `d[k] = v` on an association list:
replaces the value at an existing key, otherwise appends the new pair. -/
def dictInsert (l : List (ℚ × MCTSNode)) (k : ℚ) (v : MCTSNode) : List (ℚ × MCTSNode) :=
  match l with
  | [] => [(k, v)]
  | p :: ps => if p.1 = k then (k, v) :: ps else p :: dictInsert ps k v

/-- The action drawn by `random.choice(node.untried_actions)` in
`expand_leaf`, modelled by indexing the list with `pick` reduced modulo
its length (the `getD` default is never reached on a nonempty list). -/
def chosenAction (node : MCTSNode) (pick : Nat) : ℚ :=
  node.untried_actions.getD (pick % node.untried_actions.length) 0

/-- The `expand_leaf` function, identical in `mcts_vanilla.py` (lines
40-67) and `mcts_modified.py` (lines 23-39).  `pick` models the index
drawn by `random.choice(node.untried_actions)`.  The result triple is
(the input node after its in-place mutation, the node returned by the
function, the state returned by the function): a no-op call returns the
input node and state unchanged. -/
def expand_leaf (b : Board) (node : MCTSNode) (s : ℚ) (pick : Nat) :
    MCTSNode × MCTSNode × ℚ :=
  if b.is_ended s = true ∨ node.untried_actions = [] then (node, node, s)
  else
    let a := chosenAction node pick
    let s2 := b.next_state s a
    let child := MCTSNode.new (some a) (b.legal_actions s2)
    (.mk node.parent_action (node.untried_actions.erase a)
        (dictInsert node.child_nodes a child) node.visits node.wins,
      child, s2)

/-- The `backpropagate` function, identical in `mcts_vanilla.py` (lines
99-110) and `mcts_modified.py` (lines 56-63).  The `while node is not
None` walk over the mutable `parent` pointers is modelled on the explicit
parent chain `[node, node.parent, …, root]`: one recursion step updates
the current node and moves to its parent, the empty chain is the
`node is None` exit. -/
def backpropagate (chain : List MCTSNode) (won : ℚ) : List MCTSNode :=
  match chain with
  | [] => []
  | n :: rest => n.bump won :: backpropagate rest won

/-- The winning-move scan inside `rollout` in `mcts_vanilla.py` (lines
86-91): for each legal move in order, compute the successor state, and if
the game has ended there and the points value of the player to move at
the current state equals 1, return that successor state. -/
def findWinningState (b : Board) (s : ℚ) : List ℚ → Option ℚ
  | [] => none
  | m :: ms =>
    let ns := b.next_state s m
    if b.is_ended ns = true ∧ b.points_values ns (b.current_player s) = 1 then some ns
    else findWinningState b s ms

/-- The `rollout` function of `mcts_vanilla.py` (lines 69-97): while the
state is not ended, return the successor of the first legal move that
ends the game with a win for the player to move, else advance by a
uniformly random legal move.  `rng k` models the index drawn by
`random.choice(legal_moves)` at step `k`; `fuel` bounds the unrolling of
the `while` loop. -/
def rollout_vanilla (b : Board) (rng : Nat → Nat) : Nat → Nat → ℚ → ℚ
  | _, 0, s => s
  | k, fuel + 1, s =>
    if b.is_ended s = true then s
    else
      let legal := b.legal_actions s
      match findWinningState b s legal with
      | some ns => ns
      | none =>
          rollout_vanilla b rng (k + 1) fuel
            (b.next_state s (legal.getD (rng k % legal.length) 0))

/-- The `rollout` function of `mcts_modified.py` (lines 41-54): while the
state is not ended, `winning_move` is the first legal move whose
successor state is ended — with no check of who wins there — and the
state advances by it when present (the Python truthiness test
`if winning_move` is modelled as presence), else by a uniformly random
legal move. -/
def rollout_modified (b : Board) (rng : Nat → Nat) : Nat → Nat → ℚ → ℚ
  | _, 0, s => s
  | k, fuel + 1, s =>
    if b.is_ended s = true then s
    else
      let legal := b.legal_actions s
      match legal.find? (fun m => b.is_ended (b.next_state s m)) with
      | some m => rollout_modified b rng (k + 1) fuel (b.next_state s m)
      | none =>
          rollout_modified b rng (k + 1) fuel
            (b.next_state s (legal.getD (rng k % legal.length) 0))

/-- The outcome scoring in `think` of `mcts_vanilla.py` (lines 216-222):
1 when the searching identity's points value at the final state is 1, 0
when it is -1, and 0.5 otherwise. -/
def outcome_vanilla (b : Board) (id final : ℚ) : ℚ :=
  if b.points_values final id = 1 then 1
  else if b.points_values final id = -1 then 0
  else 1 / 2

/-- The outcome scoring in `think` of `mcts_modified.py` (lines 111-112):
`points.get(identity_of_bot, 0)`, the raw points value of the searching
identity (the `.get` default is absorbed by the total-function model of
`points_values`). -/
def outcome_modified (b : Board) (id final : ℚ) : ℚ :=
  b.points_values final id

/-- The module-level constant `explore_faction = sqrt(2)` of
`mcts_vanilla.py` (line 8). -/
noncomputable def explore_faction : ℝ := Real.sqrt 2

/-- The module-level constant `explore_factor = 0.9` of
`mcts_modified.py` (line 8). -/
noncomputable def explore_factor : ℝ := 9 / 10

/-- The `ucb` function of `mcts_vanilla.py` (lines 112-134): `float('inf')`
for an unvisited node; otherwise the win rate `node.wins / node.visits`,
inverted when `parent.visits % 2 != identity - 1`, plus
`explore_faction * sqrt(2 * log(parent.visits) / node.visits)`. -/
noncomputable def ucb_vanilla (node parent : MCTSNode) (identity : ℚ) : EReal :=
  if node.visits = 0 then ⊤
  else
    let win_rate : ℝ := (node.wins : ℝ) / (node.visits : ℝ)
    let wr : ℝ :=
      if ((parent.visits % 2 : ℕ) : ℚ) ≠ identity - 1 then 1 - win_rate else win_rate
    ((wr + explore_faction *
        Real.sqrt (2 * Real.log (parent.visits : ℝ) / (node.visits : ℝ)) : ℝ) : EReal)

/-- The `ucb` function of `mcts_modified.py` (lines 65-76): `float('inf')`
for an unvisited node; otherwise the win rate `node.wins / node.visits`,
inverted when `identity != parent.parent_action` (a Python `!=` between
the player identity and the action stored on the parent, true whenever
`parent.parent_action` is `None`), plus
`explore_factor * sqrt(log(parent.visits) / node.visits)`. -/
noncomputable def ucb_modified (node parent : MCTSNode) (identity : ℚ) : EReal :=
  if node.visits = 0 then ⊤
  else
    let win_rate : ℝ := (node.wins : ℝ) / (node.visits : ℝ)
    let inverted : Bool :=
      match parent.parent_action with
      | none => true
      | some a => identity != a
    let wr : ℝ := if inverted then 1 - win_rate else win_rate
    ((wr + explore_factor *
        Real.sqrt (Real.log (parent.visits : ℝ) / (node.visits : ℝ)) : ℝ) : EReal)

/-- One step of the best-child scan inside `traverse_nodes` of
`mcts_vanilla.py` (lines 30-34): keep the `(action, child)` pair whose
UCB value is strictly greater than the best so far. -/
noncomputable def bcvStep (node : MCTSNode) (id : ℚ)
    (acc : Option (ℚ × MCTSNode) × EReal) (p : ℚ × MCTSNode) :
    Option (ℚ × MCTSNode) × EReal :=
  if ucb_vanilla p.2 node id > acc.2 then (some p, ucb_vanilla p.2 node id) else acc

/-- The best-child scan inside `traverse_nodes` of `mcts_vanilla.py`
(lines 26-34): starting from `best_child = None`, `best_ucb =
float('-inf')`, fold `bcvStep` over the child dictionary. -/
noncomputable def bestChildVanilla (node : MCTSNode) (id : ℚ) :
    Option (ℚ × MCTSNode) :=
  (node.child_nodes.foldl (bcvStep node id)
    ((none : Option (ℚ × MCTSNode)), (⊥ : EReal))).1

/-- One comparison step of Python's `max(…, key=…ucb…)` in
`mcts_modified.py`: replace the best element so far only on a strictly
greater UCB value, so the first maximal element wins. -/
noncomputable def mbuStep (node : MCTSNode) (id : ℚ) (best y : MCTSNode) : MCTSNode :=
  if ucb_modified y node id > ucb_modified best node id then y else best

/-- The best-child choice inside `traverse_nodes` of `mcts_modified.py`
(lines 15-18): `max(node.child_nodes.values(), key=…ucb…)`, which raises
on an empty dictionary (modelled by `none`) and otherwise returns the
first value of maximal UCB score. -/
noncomputable def maxByUcbModified (node : MCTSNode) (id : ℚ) :
    Option MCTSNode :=
  match node.child_nodes.map Prod.snd with
  | [] => none
  | x :: xs => some (xs.foldl (mbuStep node id) x)

/-- The pair-returning form of `mcts_modified.py`'s best-child choice,
used where the functional embedding of `think` must also know under which
dictionary key the chosen child (mutated in place in Python) is stored;
it returns the first pair of maximal UCB score, consistently with
`max` over the dictionary values. -/
noncomputable def bestPairModified (node : MCTSNode) (id : ℚ) :
    Option (ℚ × MCTSNode) :=
  match node.child_nodes with
  | [] => none
  | p :: ps =>
      some (ps.foldl
        (fun best q =>
          if ucb_modified q.2 node id > ucb_modified best.2 node id then q else best)
        p)

/-- The `traverse_nodes` function of `mcts_vanilla.py` (lines 10-38):
return as soon as the state is ended or the node has untried actions,
otherwise move to the UCB-best child, advance the state by that child's
`parent_action`, and recurse.  `none` models the `AttributeError` raised
when there is no child to move to (`best_child` stays `None`) or the
chosen child carries no action; the fuel exhaustion case is also `none`
and is discharged by a fuel bound in the theorems. -/
noncomputable def traverse_nodes_vanilla (b : Board) (id : ℚ) :
    Nat → MCTSNode → ℚ → Option (MCTSNode × ℚ)
  | 0, _, _ => none
  | fuel + 1, node, s =>
    if b.is_ended s = true ∨ node.untried_actions ≠ [] then some (node, s)
    else
      match bestChildVanilla node id with
      | none => none
      | some p =>
        match p.2.parent_action with
        | none => none
        | some pa => traverse_nodes_vanilla b id fuel p.2 (b.next_state s pa)

/-- The `traverse_nodes` function of `mcts_modified.py` (lines 10-21):
while the state is not ended and the node has no untried actions, move to
the child of maximal UCB value (`max` raises on no children, modelled by
`none`) and advance the state by that child's `parent_action`. -/
noncomputable def traverse_nodes_modified (b : Board) (id : ℚ) :
    Nat → MCTSNode → ℚ → Option (MCTSNode × ℚ)
  | 0, _, _ => none
  | fuel + 1, node, s =>
    if b.is_ended s = false ∧ node.untried_actions = [] then
      match maxByUcbModified node id with
      | none => none
      | some c =>
        match c.parent_action with
        | none => none
        | some pa => traverse_nodes_modified b id fuel c (b.next_state s pa)
    else some (node, s)

/-- The scan in `get_best_action` of `mcts_vanilla.py` (lines 161-172):
skip unvisited children, score the rest by
`child.wins / child.visits + 0.1 * sqrt(child.visits)` and keep the first
action of strictly increasing score, starting from `best_score =
float('-inf')`. -/
noncomputable def bestScoredActionVanilla (node : MCTSNode) : Option ℚ :=
  (node.child_nodes.foldl
    (fun acc p =>
      if p.2.visits = 0 then acc
      else
        let score : EReal :=
          (((p.2.wins : ℝ) / (p.2.visits : ℝ) +
            (1 / 10 : ℝ) * Real.sqrt (p.2.visits : ℝ) : ℝ) : EReal)
        if score > acc.2 then (some p.1, score) else acc)
    ((none : Option ℚ), (⊥ : EReal))).1

/-- The fallback `max(node.child_nodes.items(), key=lambda x:
x[1].visits)[0]` of `mcts_vanilla.py` (lines 176-177), also the whole
`get_best_action` of `mcts_modified.py` (lines 78-83): the action of the
first child of maximal visit count; `none` models the `ValueError`
raised by `max` on an empty dictionary. -/
def maxByVisits : List (ℚ × MCTSNode) → Option ℚ
  | [] => none
  | p :: ps =>
      some ((ps.foldl (fun best q => if q.2.visits > best.2.visits then q else best) p).1)

/-- The `get_best_action` function of `mcts_vanilla.py` (lines 152-179):
the best blended-score action among visited children, falling back to the
most-visited child when no child has been visited. -/
noncomputable def get_best_action_vanilla (node : MCTSNode) : Option ℚ :=
  match bestScoredActionVanilla node with
  | some a => some a
  | none => maxByVisits node.child_nodes

/-- The `get_best_action` function of `mcts_modified.py` (lines 78-83). -/
def get_best_action_modified (node : MCTSNode) : Option ℚ :=
  maxByVisits node.child_nodes

/-- Replacement of the child stored under key `k` (the functional
rendering of Python's in-place mutation of the child object found at that
key). -/
def replaceChild (l : List (ℚ × MCTSNode)) (k : ℚ) (c : MCTSNode) :
    List (ℚ × MCTSNode) :=
  l.map (fun p => if p.1 = k then (k, c) else p)

/-- One iteration of the simulation loop in `think` of `mcts_vanilla.py`
(lines 201-222): Selection (`traverse_nodes`), Expansion (`expand_leaf`,
skipped on an ended state), Simulation (`rollout`), outcome scoring and
Backpropagation.  Because the Python tree is updated in place through
`parent` pointers while the embedding is functional, the iteration is a
single recursion that walks down exactly as `traverse_nodes` does and,
unwinding, applies the `backpropagate` update `visits += 1; wins += won`
to every node on the traversal path; the returned scalar is the `won`
value handed to `backpropagate` in this iteration.  `none` models the
exceptions `traverse_nodes` can raise on a malformed tree (and fuel
exhaustion, discharged by fuel bounds in the theorems). -/
noncomputable def think_iter_vanilla (b : Board) (id : ℚ) (pick : Nat)
    (rng : Nat → Nat) (rfuel : Nat) : Nat → MCTSNode → ℚ → Option (MCTSNode × ℚ)
  | 0, _, _ => none
  | fuel + 1, node, s =>
    if b.is_ended s = true ∨ node.untried_actions ≠ [] then
      if b.is_ended s = true then
        let final := rollout_vanilla b rng 0 rfuel s
        let won := outcome_vanilla b id final
        some (node.bump won, won)
      else
        let r := expand_leaf b node s pick
        let a := chosenAction node pick
        let final := rollout_vanilla b rng 0 rfuel r.2.2
        let won := outcome_vanilla b id final
        some ((MCTSNode.mk r.1.parent_action r.1.untried_actions
            (replaceChild r.1.child_nodes a (r.2.1.bump won)) r.1.visits r.1.wins).bump won,
          won)
    else
      match bestChildVanilla node id with
      | none => none
      | some p =>
        match p.2.parent_action with
        | none => none
        | some pa =>
          match think_iter_vanilla b id pick rng rfuel fuel p.2 (b.next_state s pa) with
          | none => none
          | some r =>
              some ((MCTSNode.mk node.parent_action node.untried_actions
                  (replaceChild node.child_nodes p.1 r.1) node.visits node.wins).bump r.2,
                r.2)

/-- One iteration of the simulation loop in `think` of `mcts_modified.py`
(lines 96-113), built exactly as `think_iter_vanilla` but from the
modified variants of selection, rollout and outcome scoring. -/
noncomputable def think_iter_modified (b : Board) (id : ℚ) (pick : Nat)
    (rng : Nat → Nat) (rfuel : Nat) : Nat → MCTSNode → ℚ → Option (MCTSNode × ℚ)
  | 0, _, _ => none
  | fuel + 1, node, s =>
    if b.is_ended s = false ∧ node.untried_actions = [] then
      match bestPairModified node id with
      | none => none
      | some p =>
        match p.2.parent_action with
        | none => none
        | some pa =>
          match think_iter_modified b id pick rng rfuel fuel p.2 (b.next_state s pa) with
          | none => none
          | some r =>
              some ((MCTSNode.mk node.parent_action node.untried_actions
                  (replaceChild node.child_nodes p.1 r.1) node.visits node.wins).bump r.2,
                r.2)
    else
      if b.is_ended s = true then
        let final := rollout_modified b rng 0 rfuel s
        let won := outcome_modified b id final
        some (node.bump won, won)
      else
        let r := expand_leaf b node s pick
        let a := chosenAction node pick
        let final := rollout_modified b rng 0 rfuel r.2.2
        let won := outcome_modified b id final
        some ((MCTSNode.mk r.1.parent_action r.1.untried_actions
            (replaceChild r.1.child_nodes a (r.2.1.bump won)) r.1.visits r.1.wins).bump won,
          won)

/-- The `for _ in range(num_nodes)` loop of `think` in `mcts_vanilla.py`
(lines 201-222): run `n` iterations from the root, threading the updated
tree; `picks i` and `rngs i` supply the random draws of iteration `i`. -/
noncomputable def think_loop_vanilla (b : Board) (id : ℚ) (picks : Nat → Nat)
    (rngs : Nat → Nat → Nat) (rfuel tfuel : Nat) : Nat → MCTSNode → ℚ → Option MCTSNode
  | 0, t, _ => some t
  | n + 1, t, s =>
    match think_iter_vanilla b id (picks n) (rngs n) rfuel tfuel t s with
    | none => none
    | some r => think_loop_vanilla b id picks rngs rfuel tfuel n r.1 s

/-- The `for _ in range(num_nodes)` loop of `think` in
`mcts_modified.py` (lines 96-113). -/
noncomputable def think_loop_modified (b : Board) (id : ℚ) (picks : Nat → Nat)
    (rngs : Nat → Nat → Nat) (rfuel tfuel : Nat) : Nat → MCTSNode → ℚ → Option MCTSNode
  | 0, t, _ => some t
  | n + 1, t, s =>
    match think_iter_modified b id (picks n) (rngs n) rfuel tfuel t s with
    | none => none
    | some r => think_loop_modified b id picks rngs rfuel tfuel n r.1 s

/-- The `think` function of `mcts_vanilla.py` (lines 181-225): determine
the searching identity, build the root from the legal actions of the
input state, run the simulation budget `n` (the `num_nodes` read at
module load) and return `get_best_action` of the root; `none` models a
raised exception. -/
noncomputable def think_vanilla (b : Board) (picks : Nat → Nat)
    (rngs : Nat → Nat → Nat) (rfuel tfuel n : Nat) (s : ℚ) : Option ℚ :=
  let id := b.current_player s
  let root := MCTSNode.new none (b.legal_actions s)
  match think_loop_vanilla b id picks rngs rfuel tfuel n root s with
  | none => none
  | some t => get_best_action_vanilla t

/-- The `think` function of `mcts_modified.py` (lines 85-115). -/
noncomputable def think_modified (b : Board) (picks : Nat → Nat)
    (rngs : Nat → Nat → Nat) (rfuel tfuel n : Nat) (s : ℚ) : Option ℚ :=
  let id := b.current_player s
  let root := MCTSNode.new none (b.legal_actions s)
  match think_loop_modified b id picks rngs rfuel tfuel n root s with
  | none => none
  | some t => get_best_action_modified t

/-- Well-formedness of a tree node relative to the game state it stands
for: when the state is not ended the node has an untried action or a
child (the board interface guarantees a nonempty legal-action set for
non-ended states, and `children ∪ untried_actions` is that set); every
child carries its dictionary key as `parent_action` and is well-formed at
the state its action leads to.  This is the sanity property of trees
built by the search from the root. -/
inductive TreeWF (b : Board) : MCTSNode → ℚ → Prop where
  | mk : ∀ pa ua cs v w s,
      (b.is_ended s = false → ua ≠ [] ∨ cs ≠ []) →
      (∀ p ∈ cs, p.2.parent_action = some p.1) →
      (∀ p ∈ cs, TreeWF b p.2 (b.next_state s p.1)) →
      TreeWF b (.mk pa ua cs v w) s

/-- Stated from the spec's words for the Selection contract: the pair `y`
is reached from the pair `x` by repeatedly — while the state is not ended
and the node has no untried action — moving to a child of maximal UCB
score (`u` is the scoring function of the variant under consideration)
and advancing the state by that child's `parent_action`. -/
inductive SelReach (b : Board) (u : MCTSNode → MCTSNode → ℚ → EReal) (id : ℚ) :
    MCTSNode × ℚ → MCTSNode × ℚ → Prop where
  | refl : ∀ x, SelReach b u id x x
  | step : ∀ n s a c pa y,
      b.is_ended s = false → n.untried_actions = [] →
      (a, c) ∈ n.child_nodes →
      (∀ q ∈ n.child_nodes, u q.2 n id ≤ u c n id) →
      c.parent_action = some pa →
      SelReach b u id (c, b.next_state s pa) y →
      SelReach b u id (n, s) y

/-- A concrete two-move game used for counterexamples and witnesses:
from state 0 player 1 moves; action 1 leads to the ended state 10 where
player 1 scores -1 (a loss for the mover), action 2 leads to the ended
state 11 where player 1 scores 1 (a win for the mover). -/
def exBoard : Board where
  is_ended := fun s => s == 10 || s == 11
  legal_actions := fun s => if s == 0 then [1, 2] else []
  next_state := fun s a =>
    if s == 0 && a == 1 then 10 else if s == 0 && a == 2 then 11 else s
  current_player := fun _ => 1
  points_values := fun s p =>
    if s == 10 then (if p == 1 then -1 else 1)
    else if s == 11 then (if p == 1 then 1 else -1)
    else 0

/-- A fixed random stream that always draws index 0. -/
def rng0 : Nat → Nat := fun _ => 0

/-- A fixed per-iteration family of random streams that always draw 0. -/
def rngs0 : Nat → Nat → Nat := fun _ _ => 0

/-- Fixture: a visited child node (1 visit, 0 wins, reached by action 5). -/
def fixtureChild : MCTSNode := MCTSNode.mk (some 5) [] [] 1 0

/-- Fixture: a root-like parent node with 2 visits and no stored action. -/
def fixtureParent : MCTSNode := MCTSNode.mk none [] [] 2 0

/-- Fixture: a leaf node for state 0 of `exBoard` with both actions
untried. -/
def fixtureLeaf : MCTSNode := MCTSNode.new none [1, 2]

@[simp] theorem MCTSNode.parent_action_mk (pa : Option ℚ) (ua : List ℚ)
    (cs : List (ℚ × MCTSNode)) (v : Nat) (w : ℚ) :
    (MCTSNode.mk pa ua cs v w).parent_action = pa := rfl

@[simp] theorem MCTSNode.untried_actions_mk (pa : Option ℚ) (ua : List ℚ)
    (cs : List (ℚ × MCTSNode)) (v : Nat) (w : ℚ) :
    (MCTSNode.mk pa ua cs v w).untried_actions = ua := rfl

@[simp] theorem MCTSNode.child_nodes_mk (pa : Option ℚ) (ua : List ℚ)
    (cs : List (ℚ × MCTSNode)) (v : Nat) (w : ℚ) :
    (MCTSNode.mk pa ua cs v w).child_nodes = cs := rfl

@[simp] theorem MCTSNode.visits_mk (pa : Option ℚ) (ua : List ℚ)
    (cs : List (ℚ × MCTSNode)) (v : Nat) (w : ℚ) :
    (MCTSNode.mk pa ua cs v w).visits = v := rfl

@[simp] theorem MCTSNode.wins_mk (pa : Option ℚ) (ua : List ℚ)
    (cs : List (ℚ × MCTSNode)) (v : Nat) (w : ℚ) :
    (MCTSNode.mk pa ua cs v w).wins = w := rfl

@[simp] theorem MCTSNode.bump_child_nodes (n : MCTSNode) (w : ℚ) :
    (n.bump w).child_nodes = n.child_nodes := rfl

@[simp] theorem MCTSNode.bump_untried_actions (n : MCTSNode) (w : ℚ) :
    (n.bump w).untried_actions = n.untried_actions := rfl

@[simp] theorem MCTSNode.bump_visits (n : MCTSNode) (w : ℚ) :
    (n.bump w).visits = n.visits + 1 := rfl

@[simp] theorem MCTSNode.bump_wins (n : MCTSNode) (w : ℚ) :
    (n.bump w).wins = n.wins + w := rfl

theorem MCTSNode.sizeOf_pos (n : MCTSNode) : 0 < sizeOf n := by
  cases n with
  | mk pa ua cs v w =>
    simp only [MCTSNode.mk.sizeOf_spec]
    omega

theorem MCTSNode.sizeOf_lt_of_mem_child (n : MCTSNode) (p : ℚ × MCTSNode)
    (h : p ∈ n.child_nodes) : sizeOf p.2 < sizeOf n := by
  cases n with
  | mk pa ua cs v w =>
    have h1 : sizeOf p < sizeOf cs := List.sizeOf_lt_of_mem h
    have h2 : sizeOf p = 1 + sizeOf p.1 + sizeOf p.2 := by
      cases p; simp
    simp only [MCTSNode.mk.sizeOf_spec]
    omega

theorem dictInsert_lookup (l : List (ℚ × MCTSNode)) (k : ℚ) (v : MCTSNode) :
    List.lookup k (dictInsert l k v) = some v := by
  induction l with
  | nil => simp [dictInsert, List.lookup]
  | cons p ps ih =>
    by_cases h : p.1 = k
    · simp [dictInsert, h, List.lookup]
    · simp only [dictInsert, if_neg h, List.lookup]
      have : (k == p.1) = false := by
        simp [beq_eq_false_iff_ne]
        exact fun he => h he.symm
      rw [this]
      exact ih

theorem dictInsert_mem_keys (l : List (ℚ × MCTSNode)) (k : ℚ) (v : MCTSNode) :
    k ∈ (dictInsert l k v).map Prod.fst := by
  induction l with
  | nil => simp [dictInsert]
  | cons p ps ih =>
    by_cases h : p.1 = k
    · simp [dictInsert, h]
    · simp only [dictInsert, if_neg h, List.map_cons, List.mem_cons]
      exact Or.inr ih

theorem dictInsert_keys_subset (l : List (ℚ × MCTSNode)) (k : ℚ) (v : MCTSNode)
    (x : ℚ) (hx : x ∈ (dictInsert l k v).map Prod.fst) :
    x = k ∨ x ∈ l.map Prod.fst := by
  induction l with
  | nil => simpa [dictInsert] using hx
  | cons p ps ih =>
    by_cases h : p.1 = k
    · simp only [dictInsert, if_pos h, List.map_cons, List.mem_cons] at hx
      rcases hx with hx | hx
      · exact Or.inl hx
      · exact Or.inr (by rw [List.map_cons]; exact List.mem_cons_of_mem _ hx)
    · simp only [dictInsert, if_neg h, List.map_cons, List.mem_cons] at hx
      rcases hx with hx | hx
      · exact Or.inr (by rw [List.map_cons, hx]; exact List.mem_cons_self _ _)
      · rcases ih hx with hx2 | hx2
        · exact Or.inl hx2
        · exact Or.inr (by rw [List.map_cons]; exact List.mem_cons_of_mem _ hx2)

theorem dictInsert_length_fresh (l : List (ℚ × MCTSNode)) (k : ℚ) (v : MCTSNode)
    (h : k ∉ l.map Prod.fst) : (dictInsert l k v).length = l.length + 1 := by
  induction l with
  | nil => simp [dictInsert]
  | cons p ps ih =>
    simp only [List.map_cons, List.mem_cons] at h
    push_neg at h
    have hp : p.1 ≠ k := fun he => h.1 he.symm
    simp only [dictInsert, if_neg hp, List.length_cons]
    rw [ih h.2]

theorem chosenAction_mem (node : MCTSNode) (pick : Nat)
    (h : node.untried_actions ≠ []) : chosenAction node pick ∈ node.untried_actions := by
  unfold chosenAction
  have hlen : 0 < node.untried_actions.length := List.length_pos.mpr h
  have hlt : pick % node.untried_actions.length < node.untried_actions.length :=
    Nat.mod_lt _ hlen
  rw [List.getD_eq_getElem _ _ hlt]
  exact List.getElem_mem hlt

theorem TreeWF.nonempty {b : Board} {n : MCTSNode} {s : ℚ} (h : TreeWF b n s)
    (he : b.is_ended s = false) : n.untried_actions ≠ [] ∨ n.child_nodes ≠ [] := by
  cases h with
  | mk pa ua cs v w s h1 h2 h3 => simpa using h1 he

theorem TreeWF.childKey {b : Board} {n : MCTSNode} {s : ℚ} (h : TreeWF b n s) :
    ∀ p ∈ n.child_nodes, p.2.parent_action = some p.1 := by
  cases h with
  | mk pa ua cs v w s h1 h2 h3 => simpa using h2

theorem TreeWF.childWF {b : Board} {n : MCTSNode} {s : ℚ} (h : TreeWF b n s) :
    ∀ p ∈ n.child_nodes, TreeWF b p.2 (b.next_state s p.1) := by
  cases h with
  | mk pa ua cs v w s h1 h2 h3 => simpa using h3

theorem ucb_vanilla_ne_bot (c p : MCTSNode) (id : ℚ) : (⊥ : EReal) < ucb_vanilla c p id := by
  unfold ucb_vanilla
  split
  · exact bot_lt_top
  · exact EReal.bot_lt_coe _

theorem ucb_modified_ne_bot (c p : MCTSNode) (id : ℚ) : (⊥ : EReal) < ucb_modified c p id := by
  unfold ucb_modified
  split
  · exact bot_lt_top
  · exact EReal.bot_lt_coe _

theorem ucb_vanilla_eq_top_iff (c p : MCTSNode) (id : ℚ) :
    ucb_vanilla c p id = ⊤ ↔ c.visits = 0 := by
  constructor
  · intro h
    by_contra hv
    rw [ucb_vanilla, if_neg hv] at h
    exact EReal.coe_ne_top _ h
  · intro h
    rw [ucb_vanilla, if_pos h]

theorem ucb_modified_eq_top_iff (c p : MCTSNode) (id : ℚ) :
    ucb_modified c p id = ⊤ ↔ c.visits = 0 := by
  constructor
  · intro h
    by_contra hv
    rw [ucb_modified, if_neg hv] at h
    exact EReal.coe_ne_top _ h
  · intro h
    rw [ucb_modified, if_pos h]

theorem bcvFold_spec (node : MCTSNode) (id : ℚ) (l : List (ℚ × MCTSNode)) :
    ∀ (acc : Option (ℚ × MCTSNode) × EReal),
      (∀ q, acc.1 = some q → acc.2 = ucb_vanilla q.2 node id) →
      (acc.1 = none → acc.2 = ⊥) →
      (∀ q, (l.foldl (bcvStep node id) acc).1 = some q →
         (l.foldl (bcvStep node id) acc).2 = ucb_vanilla q.2 node id ∧
           (q ∈ l ∨ acc.1 = some q)) ∧
      ((l.foldl (bcvStep node id) acc).1 = none →
        (l.foldl (bcvStep node id) acc).2 = ⊥) ∧
      acc.2 ≤ (l.foldl (bcvStep node id) acc).2 ∧
      (∀ p ∈ l, ucb_vanilla p.2 node id ≤ (l.foldl (bcvStep node id) acc).2) := by
  induction l with
  | nil =>
    intro acc hsome hnone
    refine ⟨fun q hq => ⟨(hsome q hq).symm ▸ rfl, Or.inr hq⟩, hnone, le_refl _, by simp⟩
  | cons p ps ih =>
    intro acc hsome hnone
    have hstep : ∀ r, bcvStep node id acc p = r →
        ((∀ q, r.1 = some q → r.2 = ucb_vanilla q.2 node id ∧ (q = p ∨ acc.1 = some q)) ∧
          (r.1 = none → r.2 = ⊥) ∧ acc.2 ≤ r.2 ∧ ucb_vanilla p.2 node id ≤ r.2) := by
      intro r hr
      rw [bcvStep] at hr
      split at hr
      · subst hr
        refine ⟨fun q hq => ?_, by simp, le_of_lt (by assumption), le_refl _⟩
        have hpq : p = q := Option.some_injective _ hq
        exact ⟨by rw [hpq], Or.inl hpq.symm⟩
      · subst hr
        refine ⟨fun q hq => ⟨hsome q hq, Or.inr hq⟩, hnone, le_refl _, ?_⟩
        exact not_lt.mp (by assumption)
    obtain ⟨h1, h2, h3, h4⟩ := hstep (bcvStep node id acc p) rfl
    obtain ⟨ih1, ih2, ih3, ih4⟩ := ih (bcvStep node id acc p)
      (fun q hq => (h1 q hq).1) h2
    rw [List.foldl_cons]
    refine ⟨?_, ih2, le_trans h3 ih3, ?_⟩
    · intro q hq
      obtain ⟨hq1, hq2⟩ := ih1 q hq
      refine ⟨hq1, ?_⟩
      rcases hq2 with hq2 | hq2
      · exact Or.inl (List.mem_cons_of_mem _ hq2)
      · rcases (h1 q hq2).2 with hq3 | hq3
        · exact Or.inl (hq3 ▸ List.mem_cons_self _ _)
        · exact Or.inr hq3
    · intro x hx
      rcases List.mem_cons.mp hx with hx | hx
      · subst hx
        exact le_trans h4 ih3
      · exact ih4 x hx

theorem bestChildVanilla_spec (node : MCTSNode) (id : ℚ)
    (h : node.child_nodes ≠ []) :
    ∃ p, bestChildVanilla node id = some p ∧ p ∈ node.child_nodes ∧
      ∀ q ∈ node.child_nodes, ucb_vanilla q.2 node id ≤ ucb_vanilla p.2 node id := by
  obtain ⟨h1, h2, h3, h4⟩ :=
    bcvFold_spec node id node.child_nodes ((none : Option (ℚ × MCTSNode)), (⊥ : EReal))
      (by simp) (by simp)
  rcases hres : (node.child_nodes.foldl (bcvStep node id)
      ((none : Option (ℚ × MCTSNode)), (⊥ : EReal))).1 with _ | p
  · exfalso
    obtain ⟨p, ps, hcons⟩ := List.exists_cons_of_ne_nil h
    have hle := h4 p (by rw [hcons]; exact List.mem_cons_self _ _)
    rw [h2 hres] at hle
    exact absurd hle (not_le.mpr (ucb_vanilla_ne_bot _ _ _))
  · obtain ⟨heq, hmem⟩ := h1 p hres
    have hmem2 : p ∈ node.child_nodes := by
      rcases hmem with hmem | hmem
      · exact hmem
      · simp at hmem
    refine ⟨p, ?_, hmem2, fun q hq => ?_⟩
    · rw [bestChildVanilla, hres]
    · exact heq ▸ h4 q hq

theorem mbuFold_spec (node : MCTSNode) (id : ℚ) (l : List MCTSNode) :
    ∀ (x : MCTSNode),
      (l.foldl (mbuStep node id) x = x ∨ l.foldl (mbuStep node id) x ∈ l) ∧
      ucb_modified x node id ≤ ucb_modified (l.foldl (mbuStep node id) x) node id ∧
      ∀ y ∈ l, ucb_modified y node id ≤ ucb_modified (l.foldl (mbuStep node id) x) node id := by
  induction l with
  | nil => exact fun x => ⟨Or.inl rfl, le_refl _, by simp⟩
  | cons y ys ih =>
    intro x
    obtain ⟨ih1, ih2, ih3⟩ := ih (mbuStep node id x y)
    have hx : ucb_modified x node id ≤ ucb_modified (mbuStep node id x y) node id := by
      rw [mbuStep]; split
      · exact le_of_lt (by assumption)
      · exact le_refl _
    have hy : ucb_modified y node id ≤ ucb_modified (mbuStep node id x y) node id := by
      rw [mbuStep]; split
      · exact le_refl _
      · exact not_lt.mp (by assumption)
    rw [List.foldl_cons]
    refine ⟨?_, le_trans hx ih2, ?_⟩
    · rcases ih1 with h | h
      · rw [h, mbuStep]
        split
        · exact Or.inr (List.mem_cons_self _ _)
        · exact Or.inl rfl
      · exact Or.inr (List.mem_cons_of_mem _ h)
    · intro z hz
      rcases List.mem_cons.mp hz with hz | hz
      · subst hz
        exact le_trans hy ih2
      · exact ih3 z hz

theorem maxByUcbModified_spec (node : MCTSNode) (id : ℚ)
    (h : node.child_nodes ≠ []) :
    ∃ c, maxByUcbModified node id = some c ∧ (∃ a, (a, c) ∈ node.child_nodes) ∧
      ∀ q ∈ node.child_nodes, ucb_modified q.2 node id ≤ ucb_modified c node id := by
  obtain ⟨p, ps, hcons⟩ := List.exists_cons_of_ne_nil h
  obtain ⟨m1, m2, m3⟩ := mbuFold_spec node id (ps.map Prod.snd) p.2
  refine ⟨(ps.map Prod.snd).foldl (mbuStep node id) p.2, ?_, ?_, ?_⟩
  · rw [maxByUcbModified, hcons, List.map_cons]
  · rcases m1 with h1 | h1
    · exact ⟨p.1, by rw [hcons, h1]; exact List.mem_cons_self _ _⟩
    · obtain ⟨q, hq, hq2⟩ := List.mem_map.mp h1
      exact ⟨q.1, by rw [hcons, ← hq2]; exact List.mem_cons_of_mem _ hq⟩
  · intro q hq
    rw [hcons] at hq
    rcases List.mem_cons.mp hq with hq | hq
    · exact hq ▸ m2
    · exact m3 q.2 (List.mem_map.mpr ⟨q, hq, rfl⟩)

theorem findWinningState_eq_none (b : Board) (s : ℚ) :
    ∀ l : List ℚ,
      (∀ m ∈ l, b.is_ended (b.next_state s m) = true →
        b.points_values (b.next_state s m) (b.current_player s) ≠ 1) →
      findWinningState b s l = none := by
  intro l
  induction l with
  | nil => intro _; rfl
  | cons m ms ih =>
    intro h
    rw [findWinningState]
    rw [if_neg]
    · exact ih fun x hx => h x (List.mem_cons_of_mem _ hx)
    · rintro ⟨h1, h2⟩
      exact h m (List.mem_cons_self _ _) h1 h2

theorem findWinningState_some_spec (b : Board) (s : ℚ) :
    ∀ (l : List ℚ) (ns : ℚ), findWinningState b s l = some ns →
      ∃ m ∈ l, ns = b.next_state s m ∧ b.is_ended ns = true ∧
        b.points_values ns (b.current_player s) = 1 := by
  intro l
  induction l with
  | nil => intro ns h; simp [findWinningState] at h
  | cons m ms ih =>
    intro ns h
    rw [findWinningState] at h
    split at h
    · obtain rfl : b.next_state s m = ns := Option.some_injective _ h
      exact ⟨m, List.mem_cons_self _ _, rfl, by tauto, by tauto⟩
    · obtain ⟨x, hx, hrest⟩ := ih ns h
      exact ⟨x, List.mem_cons_of_mem _ hx, hrest⟩

theorem findWinningState_isSome (b : Board) (s : ℚ) :
    ∀ l : List ℚ,
      (∃ m ∈ l, b.is_ended (b.next_state s m) = true ∧
        b.points_values (b.next_state s m) (b.current_player s) = 1) →
      ∃ ns, findWinningState b s l = some ns := by
  intro l
  induction l with
  | nil => rintro ⟨m, hm, _⟩; simp at hm
  | cons x xs ih =>
    rintro ⟨m, hm, h1, h2⟩
    rw [findWinningState]
    by_cases hx : b.is_ended (b.next_state s x) = true ∧
        b.points_values (b.next_state s x) (b.current_player s) = 1
    · exact ⟨b.next_state s x, if_pos hx⟩
    · rw [if_neg hx]
      rcases List.mem_cons.mp hm with hm | hm
      · exact absurd (hm ▸ ⟨h1, h2⟩) hx
      · exact ih ⟨m, hm, h1, h2⟩

/-- C7: for every node in a tree with acyclic, finite parent chains —
modelled by the explicit chain listing the node followed by its ancestors
up to the root — `backpropagate` increments `visits` by exactly 1 and
`wins` by exactly the outcome value for that node and for each of its
ancestors up to and including the root (every entry of the chain, and
nothing else), and terminates exactly when it reaches the node whose
parent is none (the end of the chain). -/
theorem C7_backpropagate_updates_chain :
    ∀ (chain : List MCTSNode) (won : ℚ),
      backpropagate chain won =
        chain.map (fun n =>
          MCTSNode.mk n.parent_action n.untried_actions n.child_nodes
            (n.visits + 1) (n.wins + won)) := by
  intro chain won
  induction chain with
  | nil => rfl
  | cons n rest ih => simp [backpropagate, MCTSNode.bump, ih]

/-- C2 counterexample: at the ended state 10 of `exBoard`, a loss for the
searching identity 1 (its points value is -1), one iteration of
`mcts_modified.py`'s `think` passes the scalar -1 — not 0 — to
`backpropagate` (the second component of `think_iter_modified`'s result
is the scalar handed to `backpropagate` in that iteration). -/
theorem C2_counterexample :
    exBoard.is_ended 10 = true ∧
    exBoard.points_values 10 1 = -1 ∧
    outcome_modified exBoard 1 10 = -1 ∧
    ¬ outcome_modified exBoard 1 10 = 0 ∧
    think_iter_modified exBoard 1 0 rng0 0 1 (MCTSNode.new none []) 10 =
      some ((MCTSNode.new none []).bump (-1), -1) :=
  ⟨by decide, by decide, by decide, by decide, by rfl⟩

/-- C2 (amended): in every iteration of `think`, the scalar passed to
`backpropagate` is, in `mcts_vanilla.py`, 1 when the rollout's final
state is a win for the searching identity (points value 1), 0 when it is
a loss (points value -1), and 0.5 otherwise; in `mcts_modified.py` it is
the raw points value of the searching identity (1 for a win, -1 for a
loss, 0 for a draw), not the win/loss/draw encoding the claim states. -/
theorem C2_outcome_encoding :
    ∀ (b : Board) (id final : ℚ),
      (b.points_values final id = 1 → outcome_vanilla b id final = 1) ∧
      (b.points_values final id = -1 → outcome_vanilla b id final = 0) ∧
      (b.points_values final id ≠ 1 → b.points_values final id ≠ -1 →
        outcome_vanilla b id final = 1 / 2) ∧
      outcome_modified b id final = b.points_values final id := by
  intro b id final
  refine ⟨fun h => by rw [outcome_vanilla, if_pos h],
    fun h => ?_, fun h1 h2 => ?_, rfl⟩
  · rw [outcome_vanilla, if_neg (by rw [h]; norm_num), if_pos h]
  · rw [outcome_vanilla, if_neg h1, if_neg h2]

/-- C2 witness: the outcome encoding of `mcts_vanilla.py` evaluated on
the win state 11 and the loss state 10 of `exBoard`, and the raw-points
scalar of `mcts_modified.py` at the win state. -/
theorem C2_witness :
    outcome_vanilla exBoard 1 11 = 1 ∧ outcome_vanilla exBoard 1 10 = 0 ∧
    outcome_modified exBoard 1 11 = exBoard.points_values 11 1 :=
  ⟨(C2_outcome_encoding exBoard 1 11).1 (by decide),
   (C2_outcome_encoding exBoard 1 10).2.1 (by decide),
   (C2_outcome_encoding exBoard 1 11).2.2.2⟩

/-- C1 counterexample: at state 0 of `exBoard` the mover (player 1) has a
winning one-ply move (action 2), yet `mcts_modified.py`'s `rollout`
returns the terminal state 10 — a loss for the mover — because it prefers
the first action whose successor is terminal without checking the
outcome, refuting both that a terminal successor is preferred only when
winning and that a one-ply forced win is returned on every call. -/
theorem C1_counterexample :
    exBoard.is_ended 0 = false ∧
    2 ∈ exBoard.legal_actions 0 ∧
    exBoard.is_ended (exBoard.next_state 0 2) = true ∧
    exBoard.points_values (exBoard.next_state 0 2) (exBoard.current_player 0) = 1 ∧
    rollout_modified exBoard rng0 0 5 0 = 10 ∧
    exBoard.is_ended 10 = true ∧
    exBoard.points_values 10 (exBoard.current_player 0) = -1 := by
  decide

/-- C1 (amended): in `mcts_vanilla.py`, each rollout step prefers a legal
action whose successor is terminal only when that terminal state is a
winning outcome for the player to move (first part), and otherwise picks
the random legal action (second part) — so from a state with a one-ply
winning move the vanilla rollout returns a winning terminal state on
every call; in `mcts_modified.py`, the rollout instead advances by the
first legal action whose successor is terminal regardless of the outcome
there (third part). -/
theorem C1_rollout_policy :
    ∀ (b : Board) (rng : Nat → Nat) (k fuel : Nat) (s : ℚ),
      b.is_ended s = false →
      ((∃ m ∈ b.legal_actions s, b.is_ended (b.next_state s m) = true ∧
          b.points_values (b.next_state s m) (b.current_player s) = 1) →
        ∃ m ∈ b.legal_actions s,
          rollout_vanilla b rng k (fuel + 1) s = b.next_state s m ∧
          b.is_ended (b.next_state s m) = true ∧
          b.points_values (b.next_state s m) (b.current_player s) = 1) ∧
      ((∀ m ∈ b.legal_actions s, b.is_ended (b.next_state s m) = true →
          b.points_values (b.next_state s m) (b.current_player s) ≠ 1) →
        rollout_vanilla b rng k (fuel + 1) s =
          rollout_vanilla b rng (k + 1) fuel
            (b.next_state s ((b.legal_actions s).getD
              (rng k % (b.legal_actions s).length) 0))) ∧
      (∀ m0, (b.legal_actions s).find? (fun m => b.is_ended (b.next_state s m)) = some m0 →
        rollout_modified b rng k (fuel + 1) s =
          rollout_modified b rng (k + 1) fuel (b.next_state s m0)) := by
  intro b rng k fuel s hend
  have hend2 : ¬ b.is_ended s = true := by rw [hend]; exact Bool.false_ne_true
  refine ⟨?_, ?_, ?_⟩
  · intro hex
    obtain ⟨ns, hns⟩ := findWinningState_isSome b s (b.legal_actions s) hex
    obtain ⟨m, hm, rfl, hterm, hwin⟩ := findWinningState_some_spec b s (b.legal_actions s) ns hns
    refine ⟨m, hm, ?_, hterm, hwin⟩
    simp only [rollout_vanilla, if_neg hend2, hns]
  · intro hno
    have hnone := findWinningState_eq_none b s (b.legal_actions s) hno
    simp only [rollout_vanilla, if_neg hend2, hnone]
  · intro m0 hm0
    simp only [rollout_modified, if_neg hend2, hm0]

/-- C1 witness: one step of `mcts_modified.py`'s rollout from state 0 of
`exBoard` advances to the successor of action 1 (the first
terminal-successor action found). -/
theorem C1_witness :
    rollout_modified exBoard rng0 0 5 0 =
      rollout_modified exBoard rng0 1 4 (exBoard.next_state 0 1) :=
  (C1_rollout_policy exBoard rng0 0 4 0 (by decide)).2.2 1 (by decide)

/-- C10: in `mcts_modified.py`, for every child `c` of a root node (whose
`parent_action` is none) with `c.visits > 0` and every player identity,
`ucb` scores the child with the inverted rate `1 - c.wins / c.visits`:
the opponent-turn test `identity != parent.parent_action` compares the
identity against `None` and is therefore always true at the root,
regardless of whose turn it actually is. -/
theorem C10_root_ucb_always_inverted :
    ∀ (c root : MCTSNode) (id : ℚ),
      root.parent_action = none → c.visits ≠ 0 →
      ucb_modified c root id =
        (((1 - (c.wins : ℝ) / (c.visits : ℝ)) +
          explore_factor * Real.sqrt (Real.log (root.visits : ℝ) / (c.visits : ℝ)) : ℝ) :
          EReal) := by
  intro c root id hpa hv
  rw [ucb_modified, if_neg hv, hpa]
  simp

/-- C10 witness: the inverted-rate formula evaluated at the fixture child
(1 visit, 0 wins) under the fixture root (2 visits, no stored action). -/
theorem C10_witness :
    ucb_modified fixtureChild fixtureParent 1 =
      (((1 - (fixtureChild.wins : ℝ) / (fixtureChild.visits : ℝ)) +
        explore_factor * Real.sqrt
          (Real.log (fixtureParent.visits : ℝ) / (fixtureChild.visits : ℝ)) : ℝ) :
        EReal) :=
  C10_root_ucb_always_inverted fixtureChild fixtureParent 1 rfl (by decide)

/-- C6: `expand_leaf` returns the node and state unchanged when the game
has ended or no untried action remains; otherwise it picks one action
from `untried_actions`, removes it from that list, creates a child node
whose `parent_action` is the chosen action and whose untried actions are
the legal actions at the successor state, registers the child in the
parent's `child_nodes` under that action — the parent link being the
child's containment in the input node's dictionary — and returns the new
child with its state, so that after a non-no-op call the chosen action is
present in `child_nodes` and absent from `untried_actions` (the absence
requiring the untried list to be duplicate-free, as the spec's set model
guarantees). -/
theorem C6_expand_leaf_contract :
    ∀ (b : Board) (node : MCTSNode) (s : ℚ) (pick : Nat),
      ((b.is_ended s = true ∨ node.untried_actions = []) →
        expand_leaf b node s pick = (node, node, s)) ∧
      (b.is_ended s = false → node.untried_actions ≠ [] → node.untried_actions.Nodup →
        chosenAction node pick ∈ node.untried_actions ∧
        (expand_leaf b node s pick).2.1 =
          MCTSNode.new (some (chosenAction node pick))
            (b.legal_actions (b.next_state s (chosenAction node pick))) ∧
        (expand_leaf b node s pick).2.2 = b.next_state s (chosenAction node pick) ∧
        (expand_leaf b node s pick).1.untried_actions =
          node.untried_actions.erase (chosenAction node pick) ∧
        chosenAction node pick ∉ (expand_leaf b node s pick).1.untried_actions ∧
        List.lookup (chosenAction node pick) (expand_leaf b node s pick).1.child_nodes =
          some (expand_leaf b node s pick).2.1 ∧
        chosenAction node pick ∈ (expand_leaf b node s pick).1.childKeys ∧
        (expand_leaf b node s pick).1.parent_action = node.parent_action ∧
        (expand_leaf b node s pick).1.visits = node.visits ∧
        (expand_leaf b node s pick).1.wins = node.wins) := by
  intro b node s pick
  constructor
  · intro h
    rw [expand_leaf, if_pos h]
  · intro hend hne hnd
    have hcond : ¬ (b.is_ended s = true ∨ node.untried_actions = []) := by
      rintro (h | h)
      · rw [hend] at h; exact Bool.false_ne_true h
      · exact hne h
    have hq : expand_leaf b node s pick =
        (MCTSNode.mk node.parent_action (node.untried_actions.erase (chosenAction node pick))
          (dictInsert node.child_nodes (chosenAction node pick)
            (MCTSNode.new (some (chosenAction node pick))
              (b.legal_actions (b.next_state s (chosenAction node pick)))))
          node.visits node.wins,
         MCTSNode.new (some (chosenAction node pick))
           (b.legal_actions (b.next_state s (chosenAction node pick))),
         b.next_state s (chosenAction node pick)) := by
      rw [expand_leaf, if_neg hcond]
    rw [hq]
    refine ⟨chosenAction_mem node pick hne, rfl, rfl, by simp, ?_, ?_, ?_, rfl, rfl, rfl⟩
    · intro hmem
      simp only [MCTSNode.untried_actions_mk] at hmem
      exact ((List.Nodup.mem_erase_iff hnd).mp hmem).1 rfl
    · simp only [MCTSNode.child_nodes_mk]
      exact dictInsert_lookup _ _ _
    · simp only [MCTSNode.childKeys, MCTSNode.child_nodes_mk]
      exact dictInsert_mem_keys _ _ _

/-- C6 witness: expanding the untried-action leaf `fixtureLeaf` at state
0 of `exBoard` returns the successor state of the chosen action, and the
chosen action is no longer among the untried actions of the updated
parent. -/
theorem C6_witness :
    (expand_leaf exBoard fixtureLeaf 0 0).2.2 =
      exBoard.next_state 0 (chosenAction fixtureLeaf 0) ∧
    chosenAction fixtureLeaf 0 ∉ (expand_leaf exBoard fixtureLeaf 0 0).1.untried_actions ∧
    chosenAction fixtureLeaf 0 ∈ (expand_leaf exBoard fixtureLeaf 0 0).1.childKeys :=
  ⟨((C6_expand_leaf_contract exBoard fixtureLeaf 0 0).2 (by decide) (by decide)
      (by decide)).2.2.1,
   ((C6_expand_leaf_contract exBoard fixtureLeaf 0 0).2 (by decide) (by decide)
      (by decide)).2.2.2.2.1,
   ((C6_expand_leaf_contract exBoard fixtureLeaf 0 0).2 (by decide) (by decide)
      (by decide)).2.2.2.2.2.2.1⟩

/-- C8: the quantity `len(child_nodes) + len(untried_actions)` equals the
legal-action count at node creation (first part), is preserved by a call
to `expand_leaf` — the only operation of the search that touches these
two fields — together with duplicate-freeness and disjointness of the
untried actions from the children keys (second part), and the per-node
statistics update applied by backpropagation leaves both fields unchanged
(third part); selection and rollout construct no nodes and modify none. -/
theorem C8_action_count_invariant :
    (∀ (pa : Option ℚ) (l : List ℚ),
       (MCTSNode.new pa l).child_nodes.length +
           (MCTSNode.new pa l).untried_actions.length = l.length ∧
       ∀ x ∈ (MCTSNode.new pa l).untried_actions, x ∉ (MCTSNode.new pa l).childKeys) ∧
    (∀ (b : Board) (node : MCTSNode) (s : ℚ) (pick : Nat),
       node.untried_actions.Nodup →
       (∀ x ∈ node.untried_actions, x ∉ node.childKeys) →
       (expand_leaf b node s pick).1.child_nodes.length +
           (expand_leaf b node s pick).1.untried_actions.length =
         node.child_nodes.length + node.untried_actions.length ∧
       (expand_leaf b node s pick).1.untried_actions.Nodup ∧
       ∀ x ∈ (expand_leaf b node s pick).1.untried_actions,
         x ∉ (expand_leaf b node s pick).1.childKeys) ∧
    (∀ (n : MCTSNode) (w : ℚ),
       (n.bump w).child_nodes = n.child_nodes ∧
       (n.bump w).untried_actions = n.untried_actions) := by
  refine ⟨fun pa l => ⟨by simp [MCTSNode.new], by simp [MCTSNode.new, MCTSNode.childKeys]⟩,
    ?_, fun n w => ⟨rfl, rfl⟩⟩
  intro b node s pick hnd hdisj
  by_cases hcond : b.is_ended s = true ∨ node.untried_actions = []
  · rw [expand_leaf, if_pos hcond]
    exact ⟨rfl, hnd, hdisj⟩
  · have hne : node.untried_actions ≠ [] := fun h => hcond (Or.inr h)
    have hmem : chosenAction node pick ∈ node.untried_actions := chosenAction_mem node pick hne
    have hkey : chosenAction node pick ∉ node.childKeys := hdisj _ hmem
    have hq : (expand_leaf b node s pick).1 =
        MCTSNode.mk node.parent_action (node.untried_actions.erase (chosenAction node pick))
          (dictInsert node.child_nodes (chosenAction node pick)
            (MCTSNode.new (some (chosenAction node pick))
              (b.legal_actions (b.next_state s (chosenAction node pick)))))
          node.visits node.wins := by
      rw [expand_leaf, if_neg hcond]
    rw [hq]
    simp only [MCTSNode.child_nodes_mk, MCTSNode.untried_actions_mk, MCTSNode.childKeys]
    refine ⟨?_, List.Nodup.erase _ hnd, ?_⟩
    · rw [dictInsert_length_fresh _ _ _ hkey, List.length_erase_of_mem hmem]
      have : 0 < node.untried_actions.length := List.length_pos.mpr hne
      omega
    · intro x hx hxk
      obtain ⟨hxne, hxmem⟩ := (List.Nodup.mem_erase_iff hnd).mp hx
      rcases dictInsert_keys_subset _ _ _ x hxk with h | h
      · exact hxne h
      · exact hdisj x hxmem h

/-- C8 witness: expanding `fixtureLeaf` (two untried actions, no
children) at state 0 of `exBoard` preserves the action count 2 and the
disjointness of untried actions from children keys. -/
theorem C8_witness :
    (expand_leaf exBoard fixtureLeaf 0 0).1.child_nodes.length +
        (expand_leaf exBoard fixtureLeaf 0 0).1.untried_actions.length =
      fixtureLeaf.child_nodes.length + fixtureLeaf.untried_actions.length ∧
    (expand_leaf exBoard fixtureLeaf 0 0).1.untried_actions.Nodup :=
  ⟨(C8_action_count_invariant.2.1 exBoard fixtureLeaf 0 0 (by decide) (by decide)).1,
   (C8_action_count_invariant.2.1 exBoard fixtureLeaf 0 0 (by decide) (by decide)).2.1⟩

theorem explore_faction_sqrt_collapse (x y : ℝ) :
    explore_faction * Real.sqrt (2 * x / y) = 2 * Real.sqrt (x / y) := by
  rw [explore_faction, ← Real.sqrt_mul (by norm_num : (0:ℝ) ≤ 2)]
  rw [show 2 * (2 * x / y) = 4 * (x / y) by ring]
  rw [Real.sqrt_mul (by norm_num : (0:ℝ) ≤ 4)]
  rw [show Real.sqrt 4 = 2 from by
    rw [show (4:ℝ) = 2 ^ 2 by norm_num, Real.sqrt_sq (by norm_num : (0:ℝ) ≤ 2)]]

/-- C4: a node with `visits == 0` receives UCB value positive infinity in
both variants (first part), and during Selection the best-child choice of
either variant never returns a visited child while an unvisited sibling
exists, regardless of the visited siblings' win rates (second part). -/
theorem C4_unvisited_ucb_infinite :
    (∀ (c p : MCTSNode) (id : ℚ), c.visits = 0 →
       ucb_vanilla c p id = ⊤ ∧ ucb_modified c p id = ⊤) ∧
    (∀ (node : MCTSNode) (id : ℚ),
       (∃ q ∈ node.child_nodes, q.2.visits = 0) →
       (∀ p, bestChildVanilla node id = some p → p.2.visits = 0) ∧
       (∀ c, maxByUcbModified node id = some c → c.visits = 0)) := by
  constructor
  · intro c p id h
    exact ⟨(ucb_vanilla_eq_top_iff c p id).mpr h, (ucb_modified_eq_top_iff c p id).mpr h⟩
  · rintro node id ⟨q, hq, hq0⟩
    have hne : node.child_nodes ≠ [] := List.ne_nil_of_mem hq
    constructor
    · intro p hp
      obtain ⟨p2, hsome, hmem, hmax⟩ := bestChildVanilla_spec node id hne
      rw [hp] at hsome
      obtain rfl : p = p2 := Option.some_injective _ hsome
      have htop : ucb_vanilla q.2 node id = ⊤ := (ucb_vanilla_eq_top_iff _ _ _).mpr hq0
      have := hmax q hq
      rw [htop] at this
      exact (ucb_vanilla_eq_top_iff _ _ _).mp (top_le_iff.mp this)
    · intro c hc
      obtain ⟨c2, hsome, _, hmax⟩ := maxByUcbModified_spec node id hne
      rw [hc] at hsome
      obtain rfl : c = c2 := Option.some_injective _ hsome
      have htop : ucb_modified q.2 node id = ⊤ := (ucb_modified_eq_top_iff _ _ _).mpr hq0
      have := hmax q hq
      rw [htop] at this
      exact (ucb_modified_eq_top_iff _ _ _).mp (top_le_iff.mp this)

/-- C4 witness: an unvisited node scores positive infinity under both
variants' `ucb`. -/
theorem C4_witness :
    ucb_vanilla (MCTSNode.new none []) fixtureParent 1 = ⊤ ∧
    ucb_modified (MCTSNode.new none []) fixtureParent 1 = ⊤ :=
  C4_unvisited_ucb_infinite.1 (MCTSNode.new none []) fixtureParent 1 rfl

/-- C3 counterexample: for the fixture child (1 visit, 0 wins) under the
fixture parent (2 visits) and identity 1, `mcts_vanilla.py`'s `ucb`
equals neither `win_rate + C * sqrt(log(p.visits) / c.visits)` nor its
inverted-rate variant, where `C` is the configured constant
`explore_faction = sqrt(2)` — the code computes
`sqrt(2 * log(p.visits) / c.visits)` instead, an extra factor 2 inside
the square root. -/
theorem C3_counterexample :
    ucb_vanilla fixtureChild fixtureParent 1 ≠
      ((((fixtureChild.wins : ℝ) / (fixtureChild.visits : ℝ)) +
        explore_faction * Real.sqrt
          (Real.log (fixtureParent.visits : ℝ) / (fixtureChild.visits : ℝ)) : ℝ) : EReal) ∧
    ucb_vanilla fixtureChild fixtureParent 1 ≠
      (((1 - (fixtureChild.wins : ℝ) / (fixtureChild.visits : ℝ)) +
        explore_faction * Real.sqrt
          (Real.log (fixtureParent.visits : ℝ) / (fixtureChild.visits : ℝ)) : ℝ) : EReal) := by
  have hL : (0:ℝ) < Real.log 2 := Real.log_pos (by norm_num)
  have hL1 : Real.log 2 < 1 := by
    have := Real.log_two_lt_d9
    linarith
  have hs0 : 0 ≤ Real.sqrt (Real.log 2) := Real.sqrt_nonneg _
  have hs1 : Real.sqrt (Real.log 2) ≤ 1 := by
    have h2 : Real.sqrt (Real.log 2) ≤ Real.sqrt 1 := Real.sqrt_le_sqrt (le_of_lt hL1)
    simpa using h2
  have hs2 : (1:ℝ) < Real.sqrt 2 := by
    have h2 : Real.sqrt 1 < Real.sqrt 2 := Real.sqrt_lt_sqrt (by norm_num) (by norm_num)
    simpa using h2
  have hs3 : Real.sqrt 2 < 2 := by
    nlinarith [Real.sq_sqrt (show (0:ℝ) ≤ 2 by norm_num), Real.sqrt_nonneg 2]
  have hlhs : ucb_vanilla fixtureChild fixtureParent 1 =
      ((Real.sqrt 2 * Real.sqrt (2 * Real.log 2) : ℝ) : EReal) := by
    simp only [ucb_vanilla, fixtureChild, fixtureParent, MCTSNode.visits_mk,
      MCTSNode.wins_mk, explore_faction]
    norm_num
  have hcollapse : Real.sqrt 2 * Real.sqrt (2 * Real.log 2) =
      2 * Real.sqrt (Real.log 2) := by
    have h3 := explore_faction_sqrt_collapse (Real.log 2) 1
    rw [explore_faction] at h3
    simpa using h3
  constructor
  · rw [hlhs]
    intro h
    have h4 := EReal.coe_eq_coe_iff.mp h
    simp only [fixtureChild, fixtureParent, MCTSNode.visits_mk, MCTSNode.wins_mk,
      explore_faction] at h4
    norm_num at h4
    have h10 : (0:ℝ) < Real.sqrt (Real.log 2) := Real.sqrt_pos.mpr hL
    nlinarith [h4, h10, hs2, mul_pos (show (0:ℝ) < Real.sqrt 2 - 1 by linarith) h10]
  · rw [hlhs]
    intro h
    have h4 := EReal.coe_eq_coe_iff.mp h
    simp only [fixtureChild, fixtureParent, MCTSNode.visits_mk, MCTSNode.wins_mk,
      explore_faction] at h4
    norm_num at h4
    have hss : Real.sqrt 2 * Real.sqrt 2 = 2 := Real.mul_self_sqrt (by norm_num)
    have h4b : 2 * Real.sqrt (Real.log 2) = 1 + Real.sqrt 2 * Real.sqrt (Real.log 2) := by
      have hassoc : Real.sqrt 2 * (Real.sqrt 2 * Real.sqrt (Real.log 2)) =
          Real.sqrt 2 * Real.sqrt 2 * Real.sqrt (Real.log 2) := by ring
      rw [hassoc, hss] at h4
      linarith [h4]
    have h9 : 2 * Real.sqrt (Real.log 2) - Real.sqrt 2 * Real.sqrt (Real.log 2) ≤
        2 - Real.sqrt 2 := by
      nlinarith [mul_nonneg (show (0:ℝ) ≤ 2 - Real.sqrt 2 by linarith)
        (show (0:ℝ) ≤ 1 - Real.sqrt (Real.log 2) by linarith)]
    linarith [h4b, h9, hs2]

/-- C3 (amended): for every child with `c.visits > 0`, `mcts_modified.py`
returns `win_rate + C * sqrt(log(p.visits) / c.visits)` with its
configured constant `C = explore_factor = 0.9`, but `mcts_vanilla.py`
returns `win_rate + 2 * sqrt(log(p.visits) / c.visits)` — the spec's
formula with effective constant 2 rather than the configured
`explore_faction = sqrt(2)`, because the code places an extra factor 2
inside the square root; the win rate is inverted according to each file's
own opponent-turn test (visit parity in vanilla, parent-action comparison
in modified). -/
theorem C3_ucb_formula :
    ∀ (c p : MCTSNode) (id : ℚ), c.visits ≠ 0 →
      ucb_vanilla c p id =
        (((if ((p.visits % 2 : ℕ) : ℚ) ≠ id - 1
             then 1 - (c.wins : ℝ) / (c.visits : ℝ)
             else (c.wins : ℝ) / (c.visits : ℝ)) +
          2 * Real.sqrt (Real.log (p.visits : ℝ) / (c.visits : ℝ)) : ℝ) : EReal) ∧
      ucb_modified c p id =
        (((if (match p.parent_action with
               | none => true
               | some a => id != a) = true
             then 1 - (c.wins : ℝ) / (c.visits : ℝ)
             else (c.wins : ℝ) / (c.visits : ℝ)) +
          explore_factor * Real.sqrt (Real.log (p.visits : ℝ) / (c.visits : ℝ)) : ℝ) : EReal) := by
  intro c p id h
  constructor
  · rw [ucb_vanilla, if_neg h, explore_faction_sqrt_collapse]
  · rw [ucb_modified, if_neg h]

/-- C3 witness: the two formulas evaluated at the fixture child under the
fixture parent. -/
theorem C3_witness :
    ucb_vanilla fixtureChild fixtureParent 1 =
      (((if ((fixtureParent.visits % 2 : ℕ) : ℚ) ≠ 1 - 1
           then 1 - (fixtureChild.wins : ℝ) / (fixtureChild.visits : ℝ)
           else (fixtureChild.wins : ℝ) / (fixtureChild.visits : ℝ)) +
        2 * Real.sqrt
          (Real.log (fixtureParent.visits : ℝ) / (fixtureChild.visits : ℝ)) : ℝ) : EReal) :=
  (C3_ucb_formula fixtureChild fixtureParent 1 (by decide)).1

/-- C5: from every well-formed tree and starting state, `traverse_nodes`
of either variant returns a `(node, state)` pair such that the game has
ended at that state or the node has at least one untried action, and that
pair is reached from the input by repeatedly moving to a child of maximal
UCB score and advancing the state by that child's `parent_action`
(`SelReach`); well-formedness (`TreeWF`) packages the board-interface
guarantee that a non-ended node has an untried action or a child, and the
fuel bound `sizeOf node` makes the recursion total. -/
theorem C5_traverse_contract :
    ∀ (b : Board) (id : ℚ) (fuel : Nat) (node : MCTSNode) (s : ℚ),
      TreeWF b node s → sizeOf node ≤ fuel →
      (∃ r, traverse_nodes_vanilla b id fuel node s = some r ∧
         (b.is_ended r.2 = true ∨ r.1.untried_actions ≠ []) ∧
         SelReach b ucb_vanilla id (node, s) r) ∧
      (∃ r, traverse_nodes_modified b id fuel node s = some r ∧
         (b.is_ended r.2 = true ∨ r.1.untried_actions ≠ []) ∧
         SelReach b ucb_modified id (node, s) r) := by
  intro b id fuel
  induction fuel with
  | zero =>
    intro node s hwf hsz
    exact absurd hsz (by have := MCTSNode.sizeOf_pos node; omega)
  | succ fuel ih =>
    intro node s hwf hsz
    by_cases hstop : b.is_ended s = true ∨ node.untried_actions ≠ []
    · have hC : ¬ (b.is_ended s = false ∧ node.untried_actions = []) := by
        rintro ⟨h1, h2⟩
        rcases hstop with h | h
        · rw [h1] at h; exact Bool.false_ne_true h
        · exact h h2
      constructor
      · exact ⟨(node, s), by rw [traverse_nodes_vanilla, if_pos hstop], hstop,
          SelReach.refl _⟩
      · exact ⟨(node, s), by rw [traverse_nodes_modified, if_neg hC], hstop,
          SelReach.refl _⟩
    · push_neg at hstop
      obtain ⟨h1, h2⟩ := hstop
      have hend : b.is_ended s = false := by
        cases h : b.is_ended s
        · rfl
        · exact absurd h h1
      have hut : node.untried_actions = [] := h2
      have hch : node.child_nodes ≠ [] := by
        rcases hwf.nonempty hend with h | h
        · exact absurd hut h
        · exact h
      constructor
      · obtain ⟨p, hsome, hmem, hmax⟩ := bestChildVanilla_spec node id hch
        have hkey := hwf.childKey p hmem
        have hcwf := hwf.childWF p hmem
        have hsz2 : sizeOf p.2 ≤ fuel := by
          have := MCTSNode.sizeOf_lt_of_mem_child node p hmem
          omega
        obtain ⟨⟨r, hr, hpost, hreach⟩, _⟩ := ih p.2 (b.next_state s p.1) hcwf hsz2
        refine ⟨r, ?_, hpost,
          SelReach.step node s p.1 p.2 p.1 r hend hut hmem hmax hkey hreach⟩
        have hC2 : ¬ (b.is_ended s = true ∨ node.untried_actions ≠ []) := by
          rintro (h | h)
          · rw [hend] at h; exact Bool.false_ne_true h
          · exact h hut
        simp only [traverse_nodes_vanilla, if_neg hC2, hsome, hkey]
        exact hr
      · obtain ⟨c, hsome, ⟨a, hmem⟩, hmax⟩ := maxByUcbModified_spec node id hch
        have hkey := hwf.childKey (a, c) hmem
        have hcwf := hwf.childWF (a, c) hmem
        have hsz2 : sizeOf c ≤ fuel := by
          have h3 : sizeOf c < sizeOf node := by
            simpa using MCTSNode.sizeOf_lt_of_mem_child node (a, c) hmem
          omega
        obtain ⟨_, ⟨r, hr, hpost, hreach⟩⟩ := ih c (b.next_state s a) hcwf hsz2
        refine ⟨r, ?_, hpost,
          SelReach.step node s a c a r hend hut hmem hmax hkey hreach⟩
        simp only [traverse_nodes_modified, if_pos (And.intro hend hut), hsome, hkey]
        exact hr

/-- C5 witness: the contract evaluated from the untried-action leaf
`fixtureLeaf` at state 0 of `exBoard`, with fuel equal to the tree
size. -/
theorem C5_witness :
    (∃ r, traverse_nodes_vanilla exBoard 1 (sizeOf fixtureLeaf) fixtureLeaf 0 = some r ∧
       (exBoard.is_ended r.2 = true ∨ r.1.untried_actions ≠ []) ∧
       SelReach exBoard ucb_vanilla 1 (fixtureLeaf, 0) r) ∧
    (∃ r, traverse_nodes_modified exBoard 1 (sizeOf fixtureLeaf) fixtureLeaf 0 = some r ∧
       (exBoard.is_ended r.2 = true ∨ r.1.untried_actions ≠ []) ∧
       SelReach exBoard ucb_modified 1 (fixtureLeaf, 0) r) :=
  C5_traverse_contract exBoard 1 (sizeOf fixtureLeaf) fixtureLeaf 0
    (TreeWF.mk none [1, 2] [] 0 0 0 (fun _ => Or.inl (by simp)) (by simp) (by simp))
    (le_refl _)

theorem think_iter_vanilla_ended (b : Board) (id : ℚ) (pick : Nat) (rng : Nat → Nat)
    (rfuel : Nat) (s : ℚ) (hend : b.is_ended s = true) :
    ∀ (tfuel : Nat) (t : MCTSNode) (r : MCTSNode × ℚ),
      think_iter_vanilla b id pick rng rfuel tfuel t s = some r →
      r.1.child_nodes = t.child_nodes ∧ r.1.untried_actions = t.untried_actions := by
  intro tfuel t r h
  cases tfuel with
  | zero => exact absurd h (by rw [think_iter_vanilla]; exact Option.noConfusion)
  | succ n =>
    have hred : think_iter_vanilla b id pick rng rfuel (n + 1) t s =
        some (t.bump (outcome_vanilla b id (rollout_vanilla b rng 0 rfuel s)),
          outcome_vanilla b id (rollout_vanilla b rng 0 rfuel s)) := by
      rw [think_iter_vanilla, if_pos (Or.inl hend), if_pos hend]
    rw [hred] at h
    obtain rfl : _ = r := Option.some_injective _ h
    exact ⟨rfl, rfl⟩

theorem think_iter_modified_ended (b : Board) (id : ℚ) (pick : Nat) (rng : Nat → Nat)
    (rfuel : Nat) (s : ℚ) (hend : b.is_ended s = true) :
    ∀ (tfuel : Nat) (t : MCTSNode) (r : MCTSNode × ℚ),
      think_iter_modified b id pick rng rfuel tfuel t s = some r →
      r.1.child_nodes = t.child_nodes ∧ r.1.untried_actions = t.untried_actions := by
  intro tfuel t r h
  cases tfuel with
  | zero => exact absurd h (by rw [think_iter_modified]; exact Option.noConfusion)
  | succ n =>
    have hC : ¬ (b.is_ended s = false ∧ t.untried_actions = []) := by
      rintro ⟨h1, _⟩
      rw [hend] at h1
      exact Bool.noConfusion h1
    have hred : think_iter_modified b id pick rng rfuel (n + 1) t s =
        some (t.bump (outcome_modified b id (rollout_modified b rng 0 rfuel s)),
          outcome_modified b id (rollout_modified b rng 0 rfuel s)) := by
      rw [think_iter_modified, if_neg hC, if_pos hend]
    rw [hred] at h
    obtain rfl : _ = r := Option.some_injective _ h
    exact ⟨rfl, rfl⟩

theorem think_loop_vanilla_ended (b : Board) (id : ℚ) (picks : Nat → Nat)
    (rngs : Nat → Nat → Nat) (rfuel tfuel : Nat) (s : ℚ) (hend : b.is_ended s = true) :
    ∀ (n : Nat) (t t2 : MCTSNode),
      think_loop_vanilla b id picks rngs rfuel tfuel n t s = some t2 →
      t2.child_nodes = t.child_nodes := by
  intro n
  induction n with
  | zero =>
    intro t t2 h
    rw [think_loop_vanilla] at h
    obtain rfl : t = t2 := Option.some_injective _ h
    rfl
  | succ n ih =>
    intro t t2 h
    rw [think_loop_vanilla] at h
    cases hit : think_iter_vanilla b id (picks n) (rngs n) rfuel tfuel t s with
    | none => rw [hit] at h; exact absurd h Option.noConfusion
    | some r =>
      rw [hit] at h
      exact (ih r.1 t2 h).trans
        (think_iter_vanilla_ended b id (picks n) (rngs n) rfuel s hend tfuel t r hit).1

theorem think_loop_modified_ended (b : Board) (id : ℚ) (picks : Nat → Nat)
    (rngs : Nat → Nat → Nat) (rfuel tfuel : Nat) (s : ℚ) (hend : b.is_ended s = true) :
    ∀ (n : Nat) (t t2 : MCTSNode),
      think_loop_modified b id picks rngs rfuel tfuel n t s = some t2 →
      t2.child_nodes = t.child_nodes := by
  intro n
  induction n with
  | zero =>
    intro t t2 h
    rw [think_loop_modified] at h
    obtain rfl : t = t2 := Option.some_injective _ h
    rfl
  | succ n ih =>
    intro t t2 h
    rw [think_loop_modified] at h
    cases hit : think_iter_modified b id (picks n) (rngs n) rfuel tfuel t s with
    | none => rw [hit] at h; exact absurd h Option.noConfusion
    | some r =>
      rw [hit] at h
      exact (ih r.1 t2 h).trans
        (think_iter_modified_ended b id (picks n) (rngs n) rfuel s hend tfuel t r hit).1

theorem get_best_action_vanilla_empty (t : MCTSNode) (h : t.child_nodes = []) :
    get_best_action_vanilla t = none := by
  have h1 : bestScoredActionVanilla t = none := by
    rw [bestScoredActionVanilla, h, List.foldl_nil]
  have h2 : maxByVisits t.child_nodes = none := by
    rw [h, maxByVisits]
  rw [get_best_action_vanilla, h1, h2]

theorem get_best_action_modified_empty (t : MCTSNode) (h : t.child_nodes = []) :
    get_best_action_modified t = none := by
  rw [get_best_action_modified, h, maxByVisits]

/-- C9: invoking `think` on an already-ended state (where the board also
reports no legal actions) fails rather than returning an action: the
root's children remain empty through every iteration (third and fourth
parts), so the terminal action choice — Python's `max` over the empty
`child_nodes`, or the empty blended-score scan with its empty fallback —
raises, modelled by both variants of `think` returning `none` (first and
second parts). -/
theorem C9_think_fails_on_ended_state :
    ∀ (b : Board) (s : ℚ) (picks : Nat → Nat) (rngs : Nat → Nat → Nat)
      (rfuel tfuel n : Nat),
      b.is_ended s = true →
      think_vanilla b picks rngs rfuel tfuel n s = none ∧
      think_modified b picks rngs rfuel tfuel n s = none ∧
      (∀ t, think_loop_vanilla b (b.current_player s) picks rngs rfuel tfuel n
          (MCTSNode.new none (b.legal_actions s)) s = some t → t.child_nodes = []) ∧
      (∀ t, think_loop_modified b (b.current_player s) picks rngs rfuel tfuel n
          (MCTSNode.new none (b.legal_actions s)) s = some t → t.child_nodes = []) := by
  intro b s picks rngs rfuel tfuel n hend
  have hroot : (MCTSNode.new none (b.legal_actions s)).child_nodes = [] := rfl
  have h3 : ∀ t, think_loop_vanilla b (b.current_player s) picks rngs rfuel tfuel n
      (MCTSNode.new none (b.legal_actions s)) s = some t → t.child_nodes = [] :=
    fun t ht =>
      (think_loop_vanilla_ended b (b.current_player s) picks rngs rfuel tfuel s hend n
        _ t ht).trans hroot
  have h4 : ∀ t, think_loop_modified b (b.current_player s) picks rngs rfuel tfuel n
      (MCTSNode.new none (b.legal_actions s)) s = some t → t.child_nodes = [] :=
    fun t ht =>
      (think_loop_modified_ended b (b.current_player s) picks rngs rfuel tfuel s hend n
        _ t ht).trans hroot
  refine ⟨?_, ?_, h3, h4⟩
  · rw [think_vanilla]
    cases hloop : think_loop_vanilla b (b.current_player s) picks rngs rfuel tfuel n
        (MCTSNode.new none (b.legal_actions s)) s with
    | none => rfl
    | some t => exact get_best_action_vanilla_empty t (h3 t hloop)
  · rw [think_modified]
    cases hloop : think_loop_modified b (b.current_player s) picks rngs rfuel tfuel n
        (MCTSNode.new none (b.legal_actions s)) s with
    | none => rfl
    | some t => exact get_best_action_modified_empty t (h4 t hloop)

/-- C9 witness: both variants of `think` fail on the ended state 10 of
`exBoard`. -/
theorem C9_witness :
    think_vanilla exBoard rng0 rngs0 1 1 1 10 = none ∧
    think_modified exBoard rng0 rngs0 1 1 1 10 = none :=
  ⟨(C9_think_fails_on_ended_state exBoard 10 rng0 rngs0 1 1 1 (by decide)).1,
   (C9_think_fails_on_ended_state exBoard 10 rng0 rngs0 1 1 1 (by decide)).2.1⟩
